import Mathlib

/-
Shallow embedding of the completion-request pipeline of the LM Studio
inline-completion extension (src/extension.ts).  Strings are modelled as
Lean `String` / `List Char`; the JavaScript regular-expression replaces
used by the source are embedded as explicit fuel-based scanners that
mirror the left-to-right, non-rescanning semantics of
`String.prototype.replace` with the /g flag for the concrete patterns
appearing in the source.
-/

set_option maxRecDepth 100000

namespace LMC

/-- Single-quote character (U+0027). -/
def squote : Char := Char.ofNat 39

/-- Backtick character (U+0060). -/
def btick : Char := Char.ofNat 96

/-- JavaScript whitespace (the ASCII part of the \s class and of
String.prototype.trim): space, tab, newline, carriage return, vertical
tab, form feed. -/
def jsWsChar (c : Char) : Bool :=
  c = ' ' || c = '\t' || c = '\n' || c = '\r' || c = Char.ofNat 11 || c = Char.ofNat 12

/-- JavaScript word character (the \w class): [A-Za-z0-9_]. -/
def wordChar (c : Char) : Bool :=
  ('a' ≤ c && c ≤ 'z') || ('A' ≤ c && c ≤ 'Z') || ('0' ≤ c && c ≤ '9') || c = '_'

/-- `pfxOf p l` : the list `l` starts with `p`. -/
def pfxOf : List Char → List Char → Bool
  | [], _ => true
  | _ :: _, [] => false
  | x :: xs, y :: ys => x = y && pfxOf xs ys

/-- `hasSub l p` : `p` occurs as a contiguous substring of `l`
(JavaScript String.prototype.includes). -/
def hasSub : List Char → List Char → Bool
  | [], p => p.isEmpty
  | c :: t, p => pfxOf p (c :: t) || hasSub t p

/-- String wrapper around a character list. -/
def ofChars (l : List Char) : String := String.mk l

/-- Split a character list at a single separator character (JavaScript
String.prototype.split with a one-character separator: an empty input
yields one empty piece). -/
def splitCh (sep : Char) : List Char → List (List Char)
  | [] => [[]]
  | c :: t =>
    if c = sep then [] :: splitCh sep t
    else
      match splitCh sep t with
      | h :: r => (c :: h) :: r
      | [] => [[c]]

/-- Join with a separator (JavaScript Array.prototype.join). -/
def joinWith (sep : String) : List String → String
  | [] => ""
  | [x] => x
  | x :: y :: r => x ++ sep ++ joinWith sep (y :: r)

/-- ASCII lower-casing (JavaScript toLowerCase on the ASCII inputs the
provider sees). -/
def asciiLower (s : String) : String :=
  ofChars (s.data.map (fun c =>
    if 'A' ≤ c && c ≤ 'Z' then Char.ofNat (c.toNat + 32) else c))

/-- JavaScript s.includes(p). -/
def hasSubStr (s p : String) : Bool := hasSub s.data p.data

/-- JavaScript s.trimLeft(). -/
def jsTrimLeft (s : String) : String := ofChars (s.data.dropWhile jsWsChar)

/-- JavaScript s.trim(). -/
def jsTrim (s : String) : String :=
  ofChars (((s.data.dropWhile jsWsChar).reverse.dropWhile jsWsChar).reverse)

/-- JavaScript s.substring(0, n) (ASCII inputs, so code units = chars). -/
def strTake (s : String) (n : Nat) : String := ofChars (s.data.take n)

/-- JavaScript s.startsWith(p). -/
def strStarts (s p : String) : Bool := pfxOf p.data s.data

/-- JavaScript s.endsWith(p). -/
def strEnds (s p : String) : Bool := pfxOf p.data.reverse s.data.reverse

/-- JavaScript s.includes(c) for a single character. -/
def strHasChar (s : String) (c : Char) : Bool := s.data.contains c

/-- The three-backtick fence delimiter. -/
def fenceLit : List Char := [btick, btick, btick]

/-- Language tags accepted after a fence by the first replace in
cleanCompletion. -/
def tagTs : List Char := "typescript".data

/-- See tagTs. -/
def tagJs : List Char := "javascript".data

/-- Consume the optional language tag after a fence. -/
def dropTag (l : List Char) : List Char :=
  if pfxOf tagTs l then l.drop 10 else if pfxOf tagJs l then l.drop 10 else l

/-- Consume the optional newline after a fence. -/
def dropNl1 : List Char → List Char
  | '\n' :: r => r
  | l => l

/-- replace(/```(?:typescript|javascript)?\n?/g, ""). -/
def fences1 : Nat → List Char → List Char
  | 0, l => l
  | _ + 1, [] => []
  | fuel + 1, c :: t =>
    if pfxOf fenceLit (c :: t) then fences1 fuel (dropNl1 (dropTag (t.drop 2)))
    else c :: fences1 fuel t

/-- replace(/```\n?/g, ""). -/
def fences2 : Nat → List Char → List Char
  | 0, l => l
  | _ + 1, [] => []
  | fuel + 1, c :: t =>
    if pfxOf fenceLit (c :: t) then fences2 fuel (dropNl1 (t.drop 2))
    else c :: fences2 fuel t

/-- replace(/^\n+/, ""): strips the leading newline run. -/
def dropLeadNl (l : List Char) : List Char := l.dropWhile (fun c => c == '\n')

/-- replace(/\n+$/, ""): strips the trailing newline run. -/
def dropTrailNl (l : List Char) : List Char :=
  (l.reverse.dropWhile (fun c => c == '\n')).reverse

/-- One match attempt of /^\s*\/\/.*$/m at a line start: the \s* run may
span line breaks; the match succeeds iff the maximal whitespace run is
followed by //; it then extends to the end of that line.  Returns the
rest of the input starting at the line terminator (or none). -/
def scMatchAt (l : List Char) : Option (List Char) :=
  let r := l.dropWhile jsWsChar
  if pfxOf ('/' :: '/' :: []) r then some ((r.drop 2).dropWhile (fun c => c != '\n'))
  else none

/-- replace(/^\s*\/\/.*$/gm, ""): processed line start by line start
(line terminators are modelled as the newline character; the provider's
inputs are normalized before any carriage-return distinction matters). -/
def stripComments : Nat → List Char → List Char
  | 0, l => l
  | fuel + 1, l =>
    match scMatchAt l with
    | some rest =>
      match rest with
      | [] => []
      | nl :: r2 => nl :: stripComments fuel r2
    | none =>
      match l.dropWhile (fun c => c != '\n') with
      | [] => l
      | nl :: r2 => l.takeWhile (fun c => c != '\n') ++ nl :: stripComments fuel r2

/-- cleaned.match(/^[^{]*{[^}]*}$/): both ends are anchored (no /m
flag), so a successful match is always the entire string. -/
def fnAnchoredMatch (l : List Char) : Option (List Char) :=
  match l.dropWhile (fun c => c != '{') with
  | [] => none
  | _ :: body =>
    match body.reverse with
    | [] => none
    | last :: revInit =>
      if last = '}' && revInit.all (fun c => c != '}') then some l else none

/-- The `if (cleaned.includes("function") && cleaned.includes("{"))`
truncation step of cleanCompletion. -/
def functionCollapse (l : List Char) : List Char :=
  if hasSub l ("function".data) && l.contains '{' then
    match fnAnchoredMatch l with
    | some m => m
    | none => l
  else l

/-- The literal console.log( prefix. -/
def clogLit : List Char := "console.log(".data

/-- The lazy (.*?)\1\) part of /console\.log\((["'])(.*?)\1\)/ :
the shortest content such that the matching quote is followed by a
closing parenthesis; `.` does not match line terminators. -/
def contentScan : List Char → Char → Option (List Char)
  | [], _ => none
  | c :: t, q =>
    if c = q && t.head? = some ')' then some []
    else if c = '\n' || c = '\r' then none
    else (contentScan t q).map (fun cs => c :: cs)

/-- cleaned.match(/console\.log\((["'])(.*?)\1\)/): first match attempt
that succeeds scanning left to right; returns the captured content. -/
def clogFind : List Char → Option (List Char)
  | [] => none
  | c :: t =>
    match (if pfxOf clogLit (c :: t) then
             match (c :: t).drop 12 with
             | q :: r => if q = '"' || q = squote then contentScan r q else none
             | [] => none
           else none) with
    | some cs => some cs
    | none => clogFind t

/-- The normalized console.log call returned by cleanCompletion. -/
def mkLogChars (cs : List Char) : List Char :=
  clogLit ++ '"' :: (cs ++ ['"', ')'])

/-- replace(/: \w+(?=[\s,)])/g, ""): colon, space, word run, with a
whitespace/comma/parenthesis lookahead (not consumed). -/
def stripA : Nat → List Char → List Char
  | 0, l => l
  | _ + 1, [] => []
  | fuel + 1, ':' :: ' ' :: r =>
    let w := r.takeWhile wordChar
    let r2 := r.dropWhile wordChar
    if w.isEmpty then ':' :: stripA fuel (' ' :: r)
    else
      match r2.head? with
      | some d =>
        if jsWsChar d || d = ',' || d = ')' then stripA fuel r2
        else ':' :: stripA fuel (' ' :: r)
      | none => ':' :: stripA fuel (' ' :: r)
  | fuel + 1, c :: t => c :: stripA fuel t

/-- replace(/<[^>]+>/g, ""). -/
def stripB : Nat → List Char → List Char
  | 0, l => l
  | _ + 1, [] => []
  | fuel + 1, '<' :: r =>
    let a := r.takeWhile (fun c => c != '>')
    (match r.dropWhile (fun c => c != '>') with
     | '>' :: r2 => if a.isEmpty then '<' :: stripB fuel r else stripB fuel r2
     | _ => '<' :: stripB fuel r)
  | fuel + 1, c :: t => c :: stripB fuel t

/-- replace(/: \w+\[\]/g, ""). -/
def stripC : Nat → List Char → List Char
  | 0, l => l
  | _ + 1, [] => []
  | fuel + 1, ':' :: ' ' :: r =>
    let w := r.takeWhile wordChar
    let r2 := r.dropWhile wordChar
    if !w.isEmpty && pfxOf ('[' :: ']' :: []) r2 then stripC fuel (r2.drop 2)
    else ':' :: stripC fuel (' ' :: r)
  | fuel + 1, c :: t => c :: stripC fuel t

/-- replace(/interface \w+ {[^}]+}/g, ""). -/
def stripD : Nat → List Char → List Char
  | 0, l => l
  | _ + 1, [] => []
  | fuel + 1, c :: t =>
    if pfxOf ("interface ".data) (c :: t) then
      let r := (c :: t).drop 10
      let w := r.takeWhile wordChar
      let r2 := r.dropWhile wordChar
      (match w, r2 with
       | _ :: _, ' ' :: '{' :: r3 =>
         let body := r3.takeWhile (fun x => x != '}')
         (match r3.dropWhile (fun x => x != '}') with
          | '}' :: r4 => if body.isEmpty then c :: stripD fuel t else stripD fuel r4
          | _ => c :: stripD fuel t)
       | _, _ => c :: stripD fuel t)
    else c :: stripD fuel t

/-- The JavaScript-profile annotation-stripping chain of
cleanCompletion (four chained replaces, in source order). -/
def jsStripsAll (l : List Char) : List Char :=
  let a := stripA (l.length + 1) l
  let b := stripB (a.length + 1) a
  let c := stripC (b.length + 1) b
  stripD (c.length + 1) c

/-- The chained replaces at the top of cleanCompletion (fences, leading
and trailing blank lines, comment lines) followed by the function-block
truncation step. -/
def cleanPre (l : List Char) : List Char :=
  let s1 := fences1 (l.length + 1) l
  let s2 := fences2 (s1.length + 1) s1
  let s3 := dropLeadNl s2
  let s4 := dropTrailNl s3
  let s5 := stripComments (s4.length + 1) s4
  functionCollapse s5

/-- CompletionProvider.cleanCompletion, with this.currentLanguage passed
explicitly. -/
def cleanCompletion (language : String) (completion : String) : String :=
  let s6 := cleanPre completion.data
  match (if hasSub s6 clogLit then clogFind s6 else none) with
  | some cs => ofChars (mkLogChars cs)
  | none => if language = "javascript" then ofChars (jsStripsAll s6) else ofChars s6

/-- vscode.Position (line, character). -/
structure Pos where
  line : Nat
  character : Nat
deriving DecidableEq, Repr

/-- The slice of vscode.TextDocument used by the provider. -/
structure TextDocument where
  lines : List String
  languageId : String
  fsPath : String
deriving DecidableEq, Repr

/-- vscode.Range. -/
structure VsRange where
  start : Pos
  stop : Pos
deriving DecidableEq, Repr

/-- vscode.InlineCompletionItem (text plus replacement range). -/
structure InlineCompletionItem where
  insertText : String
  range : VsRange
deriving DecidableEq, Repr

/-- The retained lastDefinedFunction session field. -/
structure LastFn where
  name : String
  params : List String
  line : Int
deriving DecidableEq, Repr

/-- The provider instance's mutable session fields. -/
structure ProviderState where
  currentLanguage : String
  lastDefinedFunction : Option LastFn
deriving DecidableEq, Repr

/-- The freshly-constructed provider (currentLanguage starts as
"javascript", lastDefinedFunction as null). -/
def initialState : ProviderState := ⟨"javascript", none⟩

/-- How one model call can end, seen from the awaiting pipeline. -/
inductive ModelOutcome where
  | success (content : Option String)
  | transportError (msg : String)
  | timeoutErr
  | cancelled
deriving DecidableEq, Repr

/-- document.lineAt(n).text. -/
def lineAt (doc : TextDocument) (n : Nat) : String := doc.lines.getD n ""

/-- document.getText(new Range(new Position(startLine, 0), position)). -/
def textInRange (doc : TextDocument) (startLine endLine col : Nat) : String :=
  joinWith "\n"
    (((doc.lines.drop startLine).take (endLine - startLine)) ++
      [strTake (lineAt doc endLine) col])

/-- The loop body of getContextFromComments, over the list of line
numbers it visits in order. -/
def commentsGo (doc : TextDocument) : List Nat → String → String
  | [], ctx => ctx
  | ln :: rest, ctx =>
    let line := jsTrim (lineAt doc ln)
    if strStarts line ("//") then commentsGo doc rest (line ++ "\n" ++ ctx)
    else if ctx != "" then ctx
    else commentsGo doc rest ctx

/-- Line numbers visited by getContextFromComments: position.line down
to max(position.line - 4, 0). -/
def lineNums (l : Nat) : List Nat :=
  (List.range 5).filterMap (fun k => if k ≤ l then some (l - k) else none)

/-- CompletionProvider.getContextFromComments. -/
def getContextFromComments (doc : TextDocument) (pos : Pos) : String :=
  commentsGo doc (lineNums pos.line) ""

/-- CompletionProvider.isInsideComment. -/
def isInsideComment (doc : TextDocument) (pos : Pos) : Bool :=
  strStarts (jsTrimLeft (strTake (lineAt doc pos.line) pos.character)) ("//")

/-- BASE_PROMPTS.typescript. -/
def basePromptTs : String :=
  "You are a TypeScript code completion AI. Generate TypeScript code with:\n- Proper type annotations\n- Interface definitions when needed\n- Type-safe operations\n- Modern TypeScript patterns"

/-- BASE_PROMPTS.javascript. -/
def basePromptJs : String :=
  "You are a JavaScript code completion AI. Generate JavaScript code with:\n- ES6+ modern syntax\n- No TypeScript types\n- JavaScript-specific patterns\n- Runtime-friendly code"

/-- CompletionProvider.getLanguageContext: the (language, basePrompt)
pair; the returned language is also stored into currentLanguage by the
caller model. -/
def getLanguageContext (doc : TextDocument) : String × String :=
  let fileExtension :=
    match (splitCh '.' doc.fsPath.data).getLast? with
    | some s => asciiLower (ofChars s)
    | none => ""
  let language :=
    if doc.languageId = "typescript" || fileExtension = "ts" || fileExtension = "tsx"
    then "typescript" else "javascript"
  (language, if language = "typescript" then basePromptTs else basePromptJs)

/-- Keyword alternative (?:function|const|let|var): returns the number
of characters consumed. -/
def declKeyword (l : List Char) : Option Nat :=
  if pfxOf ("function".data) l then some 8
  else if pfxOf ("const".data) l then some 5
  else if pfxOf ("let".data) l then some 3
  else if pfxOf ("var".data) l then some 3
  else none

/-- After the declaration name and its trailing \s*, match
(?:=\s*(?:async\s*)?\(([^)]*)\)|(?:async\s*)?\(([^)]*)\)) and return
the rest after the closing parenthesis.  The backtracking alternatives
of the source regex collapse to this deterministic scan (the optional
groups either match or make the required parenthesis unreachable). -/
def declAfterName (l : List Char) : Option (List Char) :=
  let l1 := match l with
            | '=' :: r => r.dropWhile jsWsChar
            | _ => l
  let l2 := if pfxOf ("async".data) l1 then (l1.drop 5).dropWhile jsWsChar else l1
  match l2 with
  | '(' :: r =>
    (match r.dropWhile (fun c => c != ')') with
     | ')' :: rest => some rest
     | _ => none)
  | _ => none

/-- One attempt of the declaration regex
/(?:function|const|let|var)\s+(\w+)\s*(?:=\s*(?:async\s*)?\(([^)]*)\)|(?:async\s*)?\(([^)]*)\))/
at the head of the input; returns the rest after the match. -/
def declMatchAt (l : List Char) : Option (List Char) :=
  match declKeyword l with
  | none => none
  | some k =>
    let r1 := l.drop k
    let ws := r1.takeWhile jsWsChar
    if ws.isEmpty then none
    else
      let r2 := r1.dropWhile jsWsChar
      let name := r2.takeWhile wordChar
      if name.isEmpty then none
      else declAfterName ((r2.dropWhile wordChar).dropWhile jsWsChar)

/-- contextText.match(bigDeclRegex) with the /g flag: the list of full
match strings, scanning left to right. -/
def scanDecls : Nat → List Char → List (List Char)
  | 0, _ => []
  | _ + 1, [] => []
  | fuel + 1, c :: t =>
    match declMatchAt (c :: t) with
    | some rest =>
      ((c :: t).take ((c :: t).length - rest.length)) :: scanDecls fuel rest
    | none => scanDecls fuel t

/-- lastFn.match(/(\w+)\s*(?:=\s*)?(?:async\s*)?\(([^)]*)\)/): first
match scanning left to right; returns (name, raw parameter text). -/
def innerFnMatchAt (l : List Char) : Option (List Char × List Char) :=
  let name := l.takeWhile wordChar
  if name.isEmpty then none
  else
    let r1 := (l.dropWhile wordChar).dropWhile jsWsChar
    let r2 := match r1 with
              | '=' :: r => r.dropWhile jsWsChar
              | _ => r1
    let r3 := if pfxOf ("async".data) r2 then (r2.drop 5).dropWhile jsWsChar else r2
    match r3 with
    | '(' :: r =>
      (match r.dropWhile (fun c => c != ')') with
       | ')' :: _ => some (name, r.takeWhile (fun c => c != ')'))
       | _ => none)
    | _ => none

/-- See innerFnMatchAt. -/
def innerFnMatch : Nat → List Char → Option (List Char × List Char)
  | 0, _ => none
  | _ + 1, [] => none
  | fuel + 1, c :: t =>
    match innerFnMatchAt (c :: t) with
    | some r => some r
    | none => innerFnMatch fuel t

/-- contextText.match(/(?:function|const|let|var)\s+(\w+)/g) followed by
f.split(/\s+/)[1] on every match. -/
def scanFnNames : Nat → List Char → List String
  | 0, _ => []
  | _ + 1, [] => []
  | fuel + 1, c :: t =>
    match declKeyword (c :: t) with
    | some k =>
      let r1 := (c :: t).drop k
      let ws := r1.takeWhile jsWsChar
      let r2 := r1.dropWhile jsWsChar
      let name := r2.takeWhile wordChar
      if ws.isEmpty || name.isEmpty then scanFnNames fuel t
      else ofChars name :: scanFnNames fuel (r2.dropWhile wordChar)
    | none => scanFnNames fuel t

/-- Keyword alternative (?:const|let|var). -/
def varKeyword (l : List Char) : Option Nat :=
  if pfxOf ("const".data) l then some 5
  else if pfxOf ("let".data) l then some 3
  else if pfxOf ("var".data) l then some 3
  else none

/-- contextText.match(/(?:const|let|var)\s+(\w+)\s*=/g) followed by
v.split(/\s+/)[1] on every match (when the \s* before = is empty the
split keeps the = glued to the name, as in the source). -/
def scanVars : Nat → List Char → List String
  | 0, _ => []
  | _ + 1, [] => []
  | fuel + 1, c :: t =>
    match varKeyword (c :: t) with
    | some k =>
      let r1 := (c :: t).drop k
      let ws := r1.takeWhile jsWsChar
      let r2 := r1.dropWhile jsWsChar
      let name := r2.takeWhile wordChar
      let r3 := r2.dropWhile wordChar
      let ws2 := r3.takeWhile jsWsChar
      let r4 := r3.dropWhile jsWsChar
      if ws.isEmpty || name.isEmpty then scanVars fuel t
      else
        match r4 with
        | '=' :: rest =>
          (if ws2.isEmpty then ofChars (name ++ ['=']) else ofChars name) ::
            scanVars fuel rest
        | _ => scanVars fuel t
    | none => scanVars fuel t

/-- match[2].split(",").map((p) => p.trim()). -/
def splitParams (ps : List Char) : List String :=
  (splitCh ',' ps).map (fun p => jsTrim (ofChars p))

/-- The result record of analyzeCodeBlock (`varNames` is the source's
`variables` field; that identifier is a reserved word here). -/
structure AnalyzeResult where
  functionNames : List String
  varNames : List String
  codeIntent : String
  recentlyDefinedFunction : Bool
deriving DecidableEq, Repr

/-- The context window text used by analyzeCodeBlock:
max(0, position.line - 20) to the cursor. -/
def contextTextOf (doc : TextDocument) (pos : Pos) : String :=
  textInRange doc (pos.line - 20) pos.line pos.character

/-- The function-declaration matches of the context window
(contextText.match(bigDeclRegex) || []). -/
def declsOf (doc : TextDocument) (pos : Pos) : List (List Char) :=
  let l := (contextTextOf doc pos).data
  scanDecls (l.length + 1) l

/-- CompletionProvider.analyzeCodeBlock; also returns the new value of
the lastDefinedFunction field. -/
def analyzeCodeBlock (doc : TextDocument) (pos : Pos) (st : Option LastFn) :
    AnalyzeResult × Option LastFn :=
  let contextText := contextTextOf doc pos
  let l := contextText.data
  let newSt :=
    match declsOf doc pos with
    | [] => st
    | d :: ds =>
      let lastFn := (d :: ds).getLast (by simp)
      match innerFnMatch (lastFn.length + 1) lastFn with
      | some (n, ps) => some ⟨ofChars n, splitParams ps, (pos.line : Int) - 1⟩
      | none => st
  let recentlyDefinedFunction :=
    match newSt with
    | some f => f.line == (pos.line : Int) - 1
    | none => false
  let comments := getContextFromComments doc pos
  let codeIntent := if comments != "" then comments else "Continue the logical flow"
  (⟨scanFnNames (l.length + 1) l, scanVars (l.length + 1) l,
    codeIntent, recentlyDefinedFunction⟩, newSt)

/-- CompletionProvider.generateFunctionUsageExample. -/
def generateFunctionUsageExample (f : LastFn) : String :=
  let exampleParams := f.params.map (fun param =>
    if hasSubStr param ("number") then "42"
    else if hasSubStr param ("string") then "\"example\""
    else if hasSubStr param ("array") || hasSubStr param ("[]") then "[1, 2, 3]"
    else if hasSubStr param ("boolean") then "true"
    else "undefined")
  let args := joinWith ", " exampleParams
  "// Example usage:\n" ++ f.name ++ "(" ++ args ++ ");\n\n// Test cases:\nconsole.log(" ++
    f.name ++ "(" ++ args ++ "));"

/-- CompletionProvider.buildCompletionPrompt; also returns the new
lastDefinedFunction field value. -/
def buildCompletionPrompt (doc : TextDocument) (pos : Pos) (currentLine : String)
    (commentContext : String) (language : String) (st : Option LastFn) :
    String × Option LastFn :=
  let ar := analyzeCodeBlock doc pos st
  let a := ar.1
  let st2 := ar.2
  let _ := commentContext
  if isInsideComment doc pos then
    ("Complete this documentation comment:\n" ++ currentLine, st2)
  else
    match st2 with
    | some f =>
      if a.recentlyDefinedFunction then
        ("Function " ++ f.name ++
          " was just defined.\nGenerate example usage and test cases.\n" ++
          generateFunctionUsageExample f, st2)
      else (generalPrompt doc pos currentLine language a, st2)
    | none => (generalPrompt doc pos currentLine language a, st2)
where
  /-- The general-purpose prompt template of buildCompletionPrompt. -/
  generalPrompt (doc : TextDocument) (pos : Pos) (currentLine language : String)
      (a : AnalyzeResult) : String :=
    "File type: " ++ language ++ "\nCode Context:\n- Defined functions: " ++
      joinWith ", " a.functionNames ++ "\n- Available variables: " ++
      joinWith ", " a.varNames ++ "\n- Current intent: " ++ a.codeIntent ++
      "\n\nPrevious code context:\n" ++
      textInRange doc (pos.line - 5) pos.line pos.character ++
      "\n\nCurrent line:\n" ++ currentLine ++
      "\n\nInstructions:\n1. Continue the logical flow of the existing code\n2. If a function was just defined, suggest its usage\n3. Keep the context of the previously defined functions\n4. Don't introduce unrelated concepts\n5. Complete or use existing functions if appropriate\n\nComplete this code:"

/-- replace(/\r\n/g, "\n"). -/
def crlfNorm : Nat → List Char → List Char
  | 0, l => l
  | _ + 1, [] => []
  | fuel + 1, '\r' :: '\n' :: r => '\n' :: crlfNorm fuel r
  | fuel + 1, c :: t => c :: crlfNorm fuel t

/-- The post-processing applied to the raw model text before the
insertion decisions: cleanCompletion, CRLF normalization, leading
whitespace strip, and the two console.log fix-ups guarded by the
current line. -/
def sanitizedCompletion (language currentLineUptoCursor raw : String) : String :=
  let c0 := cleanCompletion language raw
  let c1 := crlfNorm (c0.data.length + 1) c0.data
  let c2 := ofChars (c1.dropWhile jsWsChar)
  if hasSubStr currentLineUptoCursor ("console.log(") then
    let c3 := if strEnds c2 (")") then c2 else c2 ++ "\")"
    if !strHasChar c3 '"' && !strHasChar c3 squote then "\"" ++ c3 else c3
  else c2

/-- Result of one debounced pipeline invocation: the returned list, a
flag recording whether the model request was issued at all, and the
provider state afterwards. -/
structure PipelineOutput where
  items : List InlineCompletionItem
  requested : Bool
  state : ProviderState
deriving DecidableEq, Repr

/-- The body of the debounced function inside
provideInlineCompletionItems, with the awaited model call's outcome
passed in explicitly.  Every thrown error is caught at the single
try/catch of the source, so the function is total. -/
def pipelineRun (st : ProviderState) (doc : TextDocument) (pos : Pos)
    (outcome : ModelOutcome) : PipelineOutput :=
  let currentLine := lineAt doc pos.line
  let currentLineUptoCursor := strTake currentLine pos.character
  let commentContext := getContextFromComments doc pos
  -- the source also computes an openBrackets/closeBrackets balance
  -- (isInsideFunction) that no later statement reads; it is omitted here
  let isEmptyLine := jsTrim currentLine == ""
  if commentContext == "" && !isEmptyLine && (jsTrim currentLineUptoCursor).length < 2 then
    ⟨[], false, st⟩
  else
    let language := (getLanguageContext doc).1
    let bp := buildCompletionPrompt doc pos currentLineUptoCursor commentContext
                language st.lastDefinedFunction
    let st2 : ProviderState := ⟨language, bp.2⟩
    match outcome with
    | .cancelled => ⟨[], true, st2⟩
    | .transportError _ => ⟨[], true, st2⟩
    | .timeoutErr => ⟨[], true, st2⟩
    | .success none => ⟨[], true, st2⟩
    | .success (some raw) =>
      if raw == "" then ⟨[], true, st2⟩
      else
        let completion := sanitizedCompletion language currentLineUptoCursor raw
        if isEmptyLine && !(commentContext == "") then
          ⟨[⟨completion, ⟨pos, pos⟩⟩], true, st2⟩
        else if completion == currentLineUptoCursor || jsTrim completion == "" then
          ⟨[], true, st2⟩
        else
          let fin := if !strStarts completion (jsTrimLeft currentLineUptoCursor)
                     then currentLineUptoCursor ++ completion else completion
          ⟨[⟨fin, ⟨⟨pos.line, 0⟩, pos⟩⟩], true, st2⟩

/-- CompletionProvider.provideInlineCompletionItems: the value the
caller's awaited promise resolves to. -/
def provideInlineCompletionItems (st : ProviderState) (doc : TextDocument)
    (pos : Pos) (outcome : ModelOutcome) : List InlineCompletionItem :=
  (pipelineRun st doc pos outcome).items

/-- DEBOUNCE_DELAY. -/
def DEBOUNCE_DELAY : Nat := 300

/-- Per-trigger outcome of the debounce logic over a strictly increasing
list of trigger times: a trigger's armed timer is cleared (outcome
none) when the next trigger arrives before the fixed delay elapses;
otherwise its pipeline runs to completion. -/
def debounceOutcomes (delay : Nat) (pipe : Nat → List InlineCompletionItem) :
    List Nat → List (Option (List InlineCompletionItem))
  | [] => []
  | [t] => [some (pipe t)]
  | t1 :: t2 :: rest =>
    (if t2 < t1 + delay then none else some (pipe t1)) ::
      debounceOutcomes delay pipe (t2 :: rest)

/-- The state update performed on the lastDefinedFunction field by one
analyzeCodeBlock invocation. -/
def lastFnStep (st : Option LastFn) (op : TextDocument × Pos) : Option LastFn :=
  (analyzeCodeBlock op.1 op.2 st).2

/-- Characters on which every replace of cleanCompletion is inert:
no backtick, line terminator, colon, angle bracket, open brace, single
quote or slash. -/
def cleanOkChar (c : Char) : Bool :=
  !(c == btick || c == '\n' || c == '\r' || c == ':' || c == '<' ||
    c == '{' || c == squote || c == '/')

/-- A string all of whose characters are cleanOkChar. -/
def cleanSafe (s : String) : Bool := s.data.all cleanOkChar

/-- Document of the C4 counterexample: a comment line above an empty
cursor line. -/
def docC4 : TextDocument := ⟨["// c", ""], "javascript", "t.js"⟩

/-- Document of the C5 counterexample and witness scenarios. -/
def docC5 : TextDocument := ⟨["  ab"], "javascript", "t.js"⟩

/-- Document shared by the C4/C5 witnesses: a two-character line. -/
def docAb : TextDocument := ⟨["ab"], "javascript", "t.js"⟩

/-- Document of the C6 scenario. -/
def docC6 : TextDocument := ⟨["// add two numbers", ""], "javascript", "a.js"⟩

/-- Document of the C7 scenario: an unterminated console.log string. -/
def docC7 : TextDocument := ⟨["console.log(\""], "javascript", "t.js"⟩

/-- Document of the C8 scenario: a function declaration on the line
above the cursor. -/
def docC8 : TextDocument := ⟨["function add(a: number, b: number)", ""], "typescript", "a.ts"⟩

/-- Document of the C10 witness: a one-character line. -/
def docC10 : TextDocument := ⟨["a"], "javascript", "t.js"⟩

/-! Helper lemmas. -/

theorem dropWhile_id_of_false {p : Char → Bool} :
    ∀ {l : List Char}, (∀ c ∈ l, p c = false) → l.dropWhile p = l
  | [], _ => rfl
  | c :: t, h => by
    simp [List.dropWhile_cons, h c (by simp)]

theorem fences1_id : ∀ (fuel : Nat) (l : List Char),
    (∀ c ∈ l, c ≠ btick) → fences1 fuel l = l
  | 0, _, _ => rfl
  | _ + 1, [], _ => rfl
  | fuel + 1, c :: t, h => by
    have hc : (btick = c) = False := by
      simp [Ne.symm (h c (by simp))]
    simp only [fences1, fenceLit, pfxOf, hc, decide_False, Bool.false_and,
      Bool.false_eq_true, if_false]
    exact congrArg (c :: ·) (fences1_id fuel t (fun x hx => h x (by simp [hx])))

theorem fences2_id : ∀ (fuel : Nat) (l : List Char),
    (∀ c ∈ l, c ≠ btick) → fences2 fuel l = l
  | 0, _, _ => rfl
  | _ + 1, [], _ => rfl
  | fuel + 1, c :: t, h => by
    have hc : (btick = c) = False := by
      simp [Ne.symm (h c (by simp))]
    simp only [fences2, fenceLit, pfxOf, hc, decide_False, Bool.false_and,
      Bool.false_eq_true, if_false]
    exact congrArg (c :: ·) (fences2_id fuel t (fun x hx => h x (by simp [hx])))

theorem dropLeadNl_id {l : List Char} (h : ∀ c ∈ l, c ≠ '\n') : dropLeadNl l = l :=
  dropWhile_id_of_false (fun c hc => by simp [h c hc])

theorem dropTrailNl_id {l : List Char} (h : ∀ c ∈ l, c ≠ '\n') : dropTrailNl l = l := by
  unfold dropTrailNl
  rw [dropWhile_id_of_false (fun c hc => by simp [h c (List.mem_reverse.mp hc)])]
  exact List.reverse_reverse l

theorem scMatchAt_none {l : List Char} (h : ∀ c ∈ l, c ≠ '/') :
    scMatchAt l = none := by
  unfold scMatchAt
  have hsub : ∀ c ∈ l.dropWhile jsWsChar, c ≠ '/' :=
    fun c hc => h c ((List.dropWhile_sublist jsWsChar).subset hc)
  cases hr : l.dropWhile jsWsChar with
  | nil => simp [pfxOf]
  | cons c t =>
    have hc : ('/' = c) = False := by
      simp [Ne.symm (hsub c (by simp [hr]))]
    simp [pfxOf, hc]

theorem stripComments_id : ∀ (fuel : Nat) (l : List Char),
    (∀ c ∈ l, c ≠ '/') → stripComments fuel l = l
  | 0, _, _ => rfl
  | fuel + 1, l, h => by
    rw [stripComments, scMatchAt_none h]
    cases hd : l.dropWhile (fun c => c != '\n') with
    | nil => rfl
    | cons nl r2 =>
      dsimp only
      have hr2 : ∀ c ∈ r2, c ≠ '/' := by
        intro c hc
        have : c ∈ l.dropWhile (fun c => c != '\n') := by
          rw [hd]; exact List.mem_cons_of_mem _ hc
        exact h c ((List.dropWhile_sublist _).subset this)
      rw [stripComments_id fuel r2 hr2]
      conv_rhs => rw [← List.takeWhile_append_dropWhile (p := fun c => c != '\n') (l := l)]
      rw [hd]

theorem fnAnchoredMatch_some {l m : List Char} (h : fnAnchoredMatch l = some m) :
    m = l := by
  unfold fnAnchoredMatch at h
  split at h
  · cases h
  · split at h
    · cases h
    · split at h
      · cases h; rfl
      · cases h

theorem functionCollapse_eq (l : List Char) : functionCollapse l = l := by
  unfold functionCollapse
  split
  · cases hm : fnAnchoredMatch l with
    | none => rfl
    | some m => exact fnAnchoredMatch_some hm
  · rfl

theorem stripA_id : ∀ (fuel : Nat) (l : List Char),
    (∀ c ∈ l, c ≠ ':') → stripA fuel l = l
  | 0, _, _ => rfl
  | _ + 1, [], _ => rfl
  | fuel + 1, c :: t, h => by
    rw [stripA.eq_def]
    split
    · rfl
    · rename_i heq
      exact heq.symm
    · rename_i fuel2 r heq1 heq2
      injection heq2 with hc _
      exact absurd hc (h c (by simp))
    · rename_i fuel2 c2 t2 hnm heq1 heq2
      injection heq2 with hc ht
      subst hc ht
      have hf : fuel = fuel2 := Nat.succ.inj heq1
      subst hf
      exact congrArg (c :: ·) (stripA_id fuel t (fun x hx => h x (by simp [hx])))

theorem stripC_id : ∀ (fuel : Nat) (l : List Char),
    (∀ c ∈ l, c ≠ ':') → stripC fuel l = l
  | 0, _, _ => rfl
  | _ + 1, [], _ => rfl
  | fuel + 1, c :: t, h => by
    rw [stripC.eq_def]
    split
    · rfl
    · rename_i heq
      exact heq.symm
    · rename_i fuel2 r heq1 heq2
      injection heq2 with hc _
      exact absurd hc (h c (by simp))
    · rename_i fuel2 c2 t2 hnm heq1 heq2
      injection heq2 with hc ht
      subst hc ht
      have hf : fuel = fuel2 := Nat.succ.inj heq1
      subst hf
      exact congrArg (c :: ·) (stripC_id fuel t (fun x hx => h x (by simp [hx])))

theorem stripB_id : ∀ (fuel : Nat) (l : List Char),
    (∀ c ∈ l, c ≠ '<') → stripB fuel l = l
  | 0, _, _ => rfl
  | _ + 1, [], _ => rfl
  | fuel + 1, c :: t, h => by
    rw [stripB.eq_def]
    split
    · rfl
    · rename_i heq
      exact heq.symm
    · rename_i fuel2 r heq1 heq2
      injection heq2 with hc _
      exact absurd hc (h c (by simp))
    · rename_i fuel2 c2 t2 hnm heq1 heq2
      injection heq2 with hc ht
      subst hc ht
      have hf : fuel = fuel2 := Nat.succ.inj heq1
      subst hf
      exact congrArg (c :: ·) (stripB_id fuel t (fun x hx => h x (by simp [hx])))

theorem stripD_id : ∀ (fuel : Nat) (l : List Char),
    (∀ c ∈ l, c ≠ '{') → stripD fuel l = l
  | 0, _, _ => rfl
  | _ + 1, [], _ => rfl
  | fuel + 1, c :: t, h => by
    have ih : stripD fuel t = t :=
      stripD_id fuel t (fun x hx => h x (by simp [hx]))
    rw [stripD]
    split
    · rename_i hiface
      dsimp only
      split
      · rename_i r3 hw heq
        exfalso
        have hmem : '{' ∈ List.dropWhile wordChar (List.drop 10 (c :: t)) := by
          rw [heq]; simp
        exact absurd ((List.drop_subset 10 (c :: t))
          ((List.dropWhile_sublist wordChar).subset hmem)) (by simpa using h '{')
      · exact congrArg (c :: ·) ih
    · exact congrArg (c :: ·) ih

theorem cleanOk_ne {c : Char} (h : cleanOkChar c = true) :
    c ≠ btick ∧ c ≠ '\n' ∧ c ≠ '\r' ∧ c ≠ ':' ∧ c ≠ '<' ∧ c ≠ '{' ∧
      c ≠ squote ∧ c ≠ '/' := by
  simpa [cleanOkChar, not_or, and_assoc] using h

theorem cleanPre_id {l : List Char} (h : ∀ c ∈ l, cleanOkChar c = true) :
    cleanPre l = l := by
  have hb : ∀ c ∈ l, c ≠ btick := fun c hc => (cleanOk_ne (h c hc)).1
  have hn : ∀ c ∈ l, c ≠ '\n' := fun c hc => (cleanOk_ne (h c hc)).2.1
  have hs : ∀ c ∈ l, c ≠ '/' := fun c hc => (cleanOk_ne (h c hc)).2.2.2.2.2.2.2
  unfold cleanPre
  dsimp only
  rw [fences1_id _ _ hb, fences2_id _ _ hb, dropLeadNl_id hn, dropTrailNl_id hn,
    stripComments_id _ _ hs, functionCollapse_eq]

theorem jsStripsAll_id {l : List Char} (h : ∀ c ∈ l, cleanOkChar c = true) :
    jsStripsAll l = l := by
  have hc : ∀ c ∈ l, c ≠ ':' := fun c hc => (cleanOk_ne (h c hc)).2.2.2.1
  have hlt : ∀ c ∈ l, c ≠ '<' := fun c hc => (cleanOk_ne (h c hc)).2.2.2.2.1
  have hbr : ∀ c ∈ l, c ≠ '{' := fun c hc => (cleanOk_ne (h c hc)).2.2.2.2.2.1
  unfold jsStripsAll
  dsimp only
  rw [stripA_id _ _ hc, stripB_id _ _ hlt, stripC_id _ _ hc, stripD_id _ _ hbr]

theorem contentScan_mem : ∀ {l : List Char} {q : Char} {cs : List Char},
    contentScan l q = some cs → ∀ x ∈ cs, x ∈ l
  | [], _, _, h => by cases h
  | c :: t, q, cs, h => by
    rw [contentScan] at h
    split at h
    · cases h
      intro x hx
      cases hx
    · split at h
      · cases h
      · cases hre : contentScan t q with
        | none => rw [hre] at h; cases h
        | some cs' =>
          rw [hre] at h
          simp only [Option.map] at h
          injection h with h2
          subst h2
          intro x hx
          rcases List.mem_cons.mp hx with rfl | hx'
          · simp
          · exact List.mem_cons_of_mem _ (contentScan_mem hre x hx')

theorem contentScan_head : ∀ {l : List Char} {q : Char} {cs : List Char},
    contentScan l q = some cs → l.head? = some (cs.headD q)
  | [], _, _, h => by cases h
  | c :: t, q, cs, h => by
    rw [contentScan] at h
    split at h
    · cases h
      rename_i hc
      simp only [Bool.and_eq_true, decide_eq_true_eq] at hc
      simp [hc.1]
    · split at h
      · cases h
      · cases hre : contentScan t q with
        | none => rw [hre] at h; cases h
        | some cs' =>
          rw [hre] at h
          simp only [Option.map] at h
          injection h with h2
          subst h2
          simp

theorem contentScan_stable : ∀ {l : List Char} {q : Char} {cs : List Char},
    contentScan l q = some cs → ∀ (r' : List Char),
      contentScan (cs ++ q :: ')' :: r') q = some cs
  | [], _, _, h => by cases h
  | c :: t, q, cs, h => by
    rw [contentScan] at h
    split at h
    · cases h
      intro r'
      simp [contentScan]
    · split at h
      · cases h
      · rename_i hstop hnl
        cases hre : contentScan t q with
        | none => rw [hre] at h; cases h
        | some cs' =>
          rw [hre] at h
          simp only [Option.map] at h
          injection h with h2
          subst h2
          intro r'
          rw [List.cons_append, contentScan]
          have hhd : (cs' ++ q :: ')' :: r').head? = some (cs'.headD q) := by
            cases cs' <;> simp
          have hhd2 : t.head? = some (cs'.headD q) := contentScan_head hre
          rw [hhd, ← hhd2]
          rw [if_neg (by simpa using hstop)]
          rw [if_neg (by simpa using hnl)]
          rw [contentScan_stable hre r']
          rfl

theorem pfxOf_self_append : ∀ (p r : List Char), pfxOf p (p ++ r) = true
  | [], _ => rfl
  | x :: xs, r => by simp [pfxOf, pfxOf_self_append xs r]

theorem hasSub_of_pfx {l p : List Char} (hne : l ≠ []) (h : pfxOf p l = true) :
    hasSub l p = true := by
  cases l with
  | nil => exact absurd rfl hne
  | cons c t =>
    rw [hasSub, h]
    rfl

theorem clogFind_spec : ∀ {l cs : List Char}, clogFind l = some cs →
    ∃ q r, q ∈ l ∧ (q = '"' ∨ q = squote) ∧ contentScan r q = some cs ∧
      (∀ x ∈ r, x ∈ l)
  | [], _, h => by cases h
  | c :: t, cs, h => by
    rw [clogFind] at h
    split at h
    · rename_i cs2 hinner
      cases h
      split at hinner
      · split at hinner
        · rename_i q r heqd
          split at hinner
          · rename_i hq
            refine ⟨q, r, ?_, by simpa using hq, hinner, ?_⟩
            · exact List.drop_subset _ _ (by rw [heqd]; simp)
            · intro x hx
              exact List.drop_subset _ _ (by rw [heqd]; simp [hx])
          · cases hinner
        · cases hinner
      · cases hinner
    · rename_i hinner
      obtain ⟨q, r, hql, hqor, hsc, hrl⟩ := clogFind_spec h
      exact ⟨q, r, List.mem_cons_of_mem _ hql, hqor, hsc,
        fun x hx => List.mem_cons_of_mem _ (hrl x hx)⟩

theorem mkLog_decomp (cs : List Char) :
    mkLogChars cs = clogLit ++ ('"' :: (cs ++ ['"', ')'])) := rfl

theorem clogFind_mkLog {cs r : List Char} (h : contentScan r '"' = some cs) :
    clogFind (mkLogChars cs) = some cs := by
  have hstable := contentScan_stable h []
  have hpfx : pfxOf clogLit (mkLogChars cs) = true := by
    rw [mkLog_decomp]
    exact pfxOf_self_append _ _
  have hmk : mkLogChars cs =
      'c' :: ("onsole.log(".data ++ ('"' :: (cs ++ ['"', ')']))) := rfl
  have hdrop : (mkLogChars cs).drop 12 = '"' :: (cs ++ ['"', ')']) := by
    rw [mkLog_decomp]
    exact List.drop_left clogLit _
  rw [hmk, clogFind]
  rw [← hmk, hpfx]
  simp only [if_true]
  rw [hdrop]
  simp only []
  rw [if_pos (by decide)]
  have : cs ++ ['"', ')'] = cs ++ '"' :: ')' :: [] := rfl
  rw [this, hstable]

theorem mkLog_ok {cs : List Char} (h : ∀ x ∈ cs, cleanOkChar x = true) :
    ∀ x ∈ mkLogChars cs, cleanOkChar x = true := by
  have hlit : ∀ y ∈ clogLit, cleanOkChar y = true := by decide
  have hq : cleanOkChar '"' = true := by decide
  have hp : cleanOkChar ')' = true := by decide
  intro x hx
  rw [mkLog_decomp] at hx
  rcases List.mem_append.mp hx with hx | hx
  · exact hlit x hx
  · rcases List.mem_cons.mp hx with rfl | hx
    · exact hq
    · rcases List.mem_append.mp hx with hx | hx
      · exact h x hx
      · rcases List.mem_cons.mp hx with rfl | hx
        · exact hq
        · rcases List.mem_cons.mp hx with rfl | hx
          · exact hp
          · cases hx

theorem clean_safe_eval (lang : String) (s : String)
    (h : ∀ x ∈ s.data, cleanOkChar x = true) :
    cleanCompletion lang s =
      match (if hasSub s.data clogLit then clogFind s.data else none) with
      | some cs => ofChars (mkLogChars cs)
      | none => s := by
  unfold cleanCompletion
  dsimp only
  rw [cleanPre_id h]
  cases hcase : (if hasSub s.data clogLit then clogFind s.data else none) with
  | some cs => rfl
  | none =>
    dsimp only
    by_cases hl : lang = "javascript"
    · rw [if_pos hl, jsStripsAll_id h]
      rfl
    · rw [if_neg hl]
      rfl

theorem clean_fix_mkLog (lang : String) {cs r : List Char}
    (hok : ∀ x ∈ cs, cleanOkChar x = true)
    (hsc : contentScan r '"' = some cs) :
    cleanCompletion lang (ofChars (mkLogChars cs)) = ofChars (mkLogChars cs) := by
  have hdata : (ofChars (mkLogChars cs)).data = mkLogChars cs := rfl
  rw [clean_safe_eval lang _ (by rw [hdata]; exact mkLog_ok hok)]
  rw [hdata]
  rw [hasSub_of_pfx (by rw [mkLog_decomp]; simp [clogLit])
    (by rw [mkLog_decomp]; exact pfxOf_self_append _ _)]
  simp only [if_true]
  rw [clogFind_mkLog hsc]

theorem strStarts_append_self (a b : String) : strStarts (a ++ b) a = true := by
  show pfxOf a.data (a ++ b).data = true
  have : (a ++ b).data = a.data ++ b.data := rfl
  rw [this]
  exact pfxOf_self_append a.data b.data

theorem debounce_aux (pipe : Nat → List InlineCompletionItem) :
    ∀ (ts : List Nat) (h1 : ts ≠ []),
      List.Chain' (fun a b => b < a + DEBOUNCE_DELAY) ts →
      debounceOutcomes DEBOUNCE_DELAY pipe ts =
        List.replicate (ts.length - 1) none ++ [some (pipe (ts.getLast h1))]
  | [], h1, _ => absurd rfl h1
  | [t], _, _ => by simp [debounceOutcomes]
  | t1 :: t2 :: r, _, h2 => by
    have hc := List.chain'_cons.mp h2
    have ih := debounce_aux pipe (t2 :: r) (by simp) hc.2
    simp only [debounceOutcomes, if_pos hc.1, ih]
    simp [List.replicate_succ, List.getLast_cons]

theorem lastFnStep_ne_none (st : Option LastFn) (op : TextDocument × Pos)
    (h : st ≠ none) : lastFnStep st op ≠ none := by
  unfold lastFnStep analyzeCodeBlock
  dsimp only
  split
  · exact h
  · split
    · simp
    · exact h

/-! Claim theorems. -/

/-- C1: for a sequence of triggers on one provider in which each trigger
arrives strictly less than the 300-unit debounce delay after the
previous one, every earlier trigger's timer is cleared without its
pipeline ever executing (outcome none) and only the final trigger's
pipeline runs to completion; moreover a pipeline whose in-flight request
is cancelled contributes the empty suggestion list, so no superseded
trigger ever contributes a non-empty suggestion. -/
theorem C1_debounce_only_final (ts : List Nat)
    (pipe : Nat → List InlineCompletionItem) (h1 : ts ≠ [])
    (h2 : List.Chain' (fun a b => b < a + DEBOUNCE_DELAY) ts) :
    debounceOutcomes DEBOUNCE_DELAY pipe ts =
      List.replicate (ts.length - 1) none ++ [some (pipe (ts.getLast h1))] ∧
    (∀ st doc pos, (pipelineRun st doc pos .cancelled).items = []) := by
  refine ⟨debounce_aux pipe ts h1 h2, fun st doc pos => ?_⟩
  unfold pipelineRun
  dsimp only
  split
  · rfl
  · rfl

/-- C1 witness: three triggers at 0, 100, 250 (gaps 100 and 150, both
below the 300-unit delay): the first two outcomes are none, only the
final trigger's pipeline runs. -/
theorem C1_debounce_only_final_witness :
    debounceOutcomes DEBOUNCE_DELAY (fun _ => ([] : List InlineCompletionItem))
      [0, 100, 250] = List.replicate 2 none ++ [some []] :=
  (C1_debounce_only_final [0, 100, 250] (fun _ => []) (by decide)
    (by
      refine List.chain'_cons.mpr ⟨by decide, List.chain'_cons.mpr ⟨by decide, ?_⟩⟩
      exact List.chain'_singleton 250)).1

/-- C2: provideInlineCompletionItems is a total function of the
document, position, provider state and model-call outcome (success with
or without content, transport error, timeout, cancellation), and always
terminates in either a one-element suggestion list or the empty list —
nothing escapes the entry point. -/
theorem C2_pipeline_total_result (st : ProviderState) (doc : TextDocument)
    (pos : Pos) (outcome : ModelOutcome) :
    provideInlineCompletionItems st doc pos outcome = [] ∨
      ∃ it, provideInlineCompletionItems st doc pos outcome = [it] := by
  unfold provideInlineCompletionItems pipelineRun
  dsimp only
  split
  · exact Or.inl rfl
  · cases outcome with
    | success content =>
      cases content with
      | none => exact Or.inl rfl
      | some raw =>
        dsimp only
        split
        · exact Or.inl rfl
        · split
          · exact Or.inr ⟨_, rfl⟩
          · split
            · exact Or.inl rfl
            · exact Or.inr ⟨_, rfl⟩
    | transportError m => exact Or.inl rfl
    | timeoutErr => exact Or.inl rfl
    | cancelled => exact Or.inl rfl

/-- C3 counterexample: cleanCompletion is not idempotent.  On the raw
text "x\n// c" the comment-line strip (which runs after the
trailing-newline strip) leaves a trailing newline that only a second
application removes: one application yields "x\n", a second yields
"x". -/
theorem C3_clean_idempotent_cex :
    cleanCompletion "javascript" "x\n// c" = "x\n" ∧
    cleanCompletion "javascript" (cleanCompletion "javascript" "x\n// c") = "x" ∧
    cleanCompletion "javascript" (cleanCompletion "javascript" "x\n// c") ≠
      cleanCompletion "javascript" "x\n// c" := by decide

/-- C3 (amended): cleanCompletion is idempotent on raw texts containing
none of the characters its rewrites consume or interact with (backtick,
newline, carriage return, colon, angle bracket, open brace, single
quote, slash); on such inputs one application either leaves the text
unchanged or collapses it to a normalized console.log call which is a
fixed point of a second application. -/
theorem C3_clean_idempotent_restricted (lang : String) (s : String)
    (h : cleanSafe s = true) :
    cleanCompletion lang (cleanCompletion lang s) = cleanCompletion lang s := by
  have hok : ∀ x ∈ s.data, cleanOkChar x = true := by
    simpa [cleanSafe, List.all_eq_true] using h
  rw [clean_safe_eval lang s hok]
  cases hcase : (if hasSub s.data clogLit then clogFind s.data else none) with
  | none =>
    dsimp only
    rw [clean_safe_eval lang s hok, hcase]
  | some cs =>
    dsimp only
    have hfind : clogFind s.data = some cs := by
      by_cases hhs : hasSub s.data clogLit = true
      · rwa [if_pos hhs] at hcase
      · rw [if_neg hhs] at hcase; cases hcase
    obtain ⟨q, r, hql, hqor, hsc, hrl⟩ := clogFind_spec hfind
    have hq : q = '"' := by
      rcases hqor with h' | h'
      · exact h'
      · exact absurd h' (cleanOk_ne (hok q hql)).2.2.2.2.2.2.1
    subst hq
    have hcs_ok : ∀ x ∈ cs, cleanOkChar x = true :=
      fun x hx => hok x (hrl x (contentScan_mem hsc x hx))
    exact clean_fix_mkLog lang hcs_ok hsc

/-- C3 witness: the restricted idempotence theorem applied at the
concrete safe input "console.log(x)". -/
theorem C3_clean_idempotent_restricted_witness :
    cleanCompletion "javascript" (cleanCompletion "javascript" "console.log(x)") =
      cleanCompletion "javascript" "console.log(x)" :=
  C3_clean_idempotent_restricted "javascript" "console.log(x)" (by decide)

/-- C4 counterexample: on an empty cursor line with comment context
present, the emptiness/prefix check is bypassed by the early return, so
a raw model text that sanitizes to the empty string still produces a
one-element (empty-text) suggestion list rather than the empty list. -/
theorem C4_trivial_completion_cex :
    jsTrim (sanitizedCompletion "javascript" "" " ") = "" ∧
    provideInlineCompletionItems initialState docC4 ⟨1, 0⟩ (.success (some " ")) =
      [⟨"", ⟨⟨1, 0⟩, ⟨1, 0⟩⟩⟩] ∧
    provideInlineCompletionItems initialState docC4 ⟨1, 0⟩ (.success (some " ")) ≠
      [] := by decide

/-- C4 (amended): outside the empty-line-with-comment-context branch
(which returns before the check), whenever the sanitized completion
equals the text already typed on the current line up to the cursor, or
is empty or whitespace-only after trimming, the returned result is the
empty list. -/
theorem C4_trivial_completion_empty (st : ProviderState) (doc : TextDocument)
    (pos : Pos) (raw : String)
    (h1 : ¬ (jsTrim (lineAt doc pos.line) = "" ∧ getContextFromComments doc pos ≠ ""))
    (h2 : sanitizedCompletion (getLanguageContext doc).1
            (strTake (lineAt doc pos.line) pos.character) raw =
            strTake (lineAt doc pos.line) pos.character ∨
          jsTrim (sanitizedCompletion (getLanguageContext doc).1
            (strTake (lineAt doc pos.line) pos.character) raw) = "") :
    provideInlineCompletionItems st doc pos (.success (some raw)) = [] := by
  unfold provideInlineCompletionItems pipelineRun
  dsimp only
  split
  · rfl
  · split
    · rfl
    · split
      · rename_i hB
        exfalso
        apply h1
        simpa using hB
      · split
        · rfl
        · rename_i hEq
          exact absurd (by rcases h2 with h | h <;> simp [h]) hEq

/-- C4 witness: line "ab" with the cursor after it and model text "ab":
the sanitized completion equals the typed prefix, and the result is the
empty list. -/
theorem C4_trivial_completion_empty_witness :
    provideInlineCompletionItems initialState docAb ⟨0, 2⟩ (.success (some "ab")) = [] :=
  C4_trivial_completion_empty initialState docAb ⟨0, 2⟩ "ab" (by decide)
    (Or.inl (by decide))

/-- C5 counterexample: the prepend check compares against the
left-trimmed prefix.  With typed prefix "  ab" and sanitized completion
"abc", the completion does not start with the full prefix, yet nothing
is prepended: the returned text is "abc", which neither starts with nor
extends "  ab". -/
theorem C5_prefix_prepend_cex :
    strStarts (sanitizedCompletion "javascript" "  ab" "abc") "  ab" = false ∧
    provideInlineCompletionItems initialState docC5 ⟨0, 4⟩ (.success (some "abc")) =
      [⟨"abc", ⟨⟨0, 0⟩, ⟨0, 4⟩⟩⟩] ∧
    "abc" ≠ "  ab" ++ sanitizedCompletion "javascript" "  ab" "abc" := by decide

/-- C5 (amended): in the general (non-empty-line-with-comment) case,
every returned suggestion's text begins with the typed prefix or with
its left-trimmed form, and whenever the sanitized completion does not
start with the LEFT-TRIMMED typed prefix, the full typed prefix is
prepended. -/
theorem C5_prefix_prepend (st : ProviderState) (doc : TextDocument) (pos : Pos)
    (raw : String) (it : InlineCompletionItem)
    (h1 : ¬ (jsTrim (lineAt doc pos.line) = "" ∧ getContextFromComments doc pos ≠ ""))
    (h2 : (pipelineRun st doc pos (.success (some raw))).items = [it]) :
    (strStarts it.insertText (strTake (lineAt doc pos.line) pos.character) = true ∨
      strStarts it.insertText
        (jsTrimLeft (strTake (lineAt doc pos.line) pos.character)) = true) ∧
    (strStarts (sanitizedCompletion (getLanguageContext doc).1
        (strTake (lineAt doc pos.line) pos.character) raw)
        (jsTrimLeft (strTake (lineAt doc pos.line) pos.character)) = false →
      it.insertText = strTake (lineAt doc pos.line) pos.character ++
        sanitizedCompletion (getLanguageContext doc).1
          (strTake (lineAt doc pos.line) pos.character) raw) := by
  unfold pipelineRun at h2
  dsimp only at h2
  split at h2
  · exact absurd h2 (by simp)
  · split at h2
    · exact absurd h2 (by simp)
    · split at h2
      · rename_i hB
        exact absurd (by simpa using hB) h1
      · split at h2
        · exact absurd h2 (by simp)
        · simp only [List.cons.injEq, and_true] at h2
          subst h2
          dsimp only
          split
          · rename_i hns
            constructor
            · exact Or.inl (strStarts_append_self _ _)
            · intro _; rfl
          · rename_i hns
            simp only [Bool.not_eq_true', Bool.not_eq_false] at hns
            constructor
            · exact Or.inr hns
            · intro hf
              rw [hns] at hf
              cases hf

/-- C5 witness: line "ab", cursor after it, model text "abc": the item
text "abc" begins with the typed prefix "ab" and the prepend condition
is not triggered. -/
theorem C5_prefix_prepend_witness :
    (strStarts "abc" "ab" = true ∨ strStarts "abc" "ab" = true) ∧
    (strStarts "abc" "ab" = false → "abc" = "ab" ++ "abc") :=
  C5_prefix_prepend initialState docAb ⟨0, 2⟩ "abc" ⟨"abc", ⟨⟨0, 0⟩, ⟨0, 2⟩⟩⟩
    (by decide) (by decide)

/-- C6 counterexample: with the comment line "// add two numbers"
immediately above an empty cursor line, codeIntent is NOT the trimmed
string "// add two numbers" — the collector appends a newline after
each collected comment line. -/
theorem C6_code_intent_cex :
    (analyzeCodeBlock docC6 ⟨1, 0⟩ none).1.codeIntent ≠ "// add two numbers" := by
  decide

/-- C6 (amended): in that scenario codeIntent equals the comment line
followed by a newline, "// add two numbers\n" — whose trim is the
claimed "// add two numbers" — and not the default fallback
"Continue the logical flow". -/
theorem C6_code_intent :
    (analyzeCodeBlock docC6 ⟨1, 0⟩ none).1.codeIntent = "// add two numbers\n" ∧
    jsTrim ((analyzeCodeBlock docC6 ⟨1, 0⟩ none).1.codeIntent) = "// add two numbers" ∧
    (analyzeCodeBlock docC6 ⟨1, 0⟩ none).1.codeIntent ≠ "Continue the logical flow" := by
  decide

/-- C7: with the current line "console.log(\"" (cursor at its end) and
raw model text "hello", the finalized suggestion is exactly
"console.log(\"hello\")", replacing the span from the start of the line
to the cursor. -/
theorem C7_console_log_completion :
    provideInlineCompletionItems initialState docC7 ⟨0, 13⟩ (.success (some "hello")) =
      [⟨"console.log(\"hello\")", ⟨⟨0, 0⟩, ⟨0, 13⟩⟩⟩] := by decide

/-- C8: with "function add(a: number, b: number)" on the line above the
cursor, the declaration scan stores add with parameter texts
"a: number" and "b: number" and declaration line cursorLine - 1, the
recently-defined flag is true, the cursor is not in a comment, and the
prompt builder emits the usage-example prompt whose synthesized
argument literals are "42, 42". -/
theorem C8_usage_prompt_42 :
    (analyzeCodeBlock docC8 ⟨1, 0⟩ none).2 =
      some ⟨"add", ["a: number", "b: number"], 0⟩ ∧
    (analyzeCodeBlock docC8 ⟨1, 0⟩ none).1.recentlyDefinedFunction = true ∧
    isInsideComment docC8 ⟨1, 0⟩ = false ∧
    (buildCompletionPrompt docC8 ⟨1, 0⟩ "" "" "typescript" none).1 =
      "Function add was just defined.\nGenerate example usage and test cases.\n// Example usage:\nadd(42, 42);\n\n// Test cases:\nconsole.log(add(42, 42));" := by
  decide

/-- C9: over any sequence of analyzeCodeBlock invocations, once the
lastDefinedFunction field is non-null it is never reset to null; an
invocation whose context window yields no declaration match leaves the
field unchanged; and any change to the field is an overwrite with a new
record, possible only when the window scan found a declaration. -/
theorem C9_lastfn_never_cleared :
    (∀ (ops : List (TextDocument × Pos)) (st : Option LastFn),
       st ≠ none → List.foldl lastFnStep st ops ≠ none) ∧
    (∀ (doc : TextDocument) (pos : Pos) (st : Option LastFn),
       declsOf doc pos = [] → lastFnStep st (doc, pos) = st) ∧
    (∀ (doc : TextDocument) (pos : Pos) (st : Option LastFn),
       lastFnStep st (doc, pos) ≠ st →
         declsOf doc pos ≠ [] ∧ ∃ f, lastFnStep st (doc, pos) = some f) := by
  refine ⟨?_, ?_, ?_⟩
  · intro ops
    induction ops with
    | nil => intro st h; exact h
    | cons op rest ih =>
      intro st h
      exact ih (lastFnStep st op) (lastFnStep_ne_none st op h)
  · intro doc pos st h
    unfold lastFnStep analyzeCodeBlock
    dsimp only
    rw [h]
  · intro doc pos st h
    unfold lastFnStep analyzeCodeBlock at h ⊢
    dsimp only at h ⊢
    split at h
    · exact absurd rfl h
    · rename_i d ds heq
      split at h
      · refine ⟨by simp [heq], _, rfl⟩
      · exact absurd rfl h

/-- C9 witness: a non-null field survives an invocation on a
declaration-free document, and a null field stays null on the same
declaration-free document. -/
theorem C9_lastfn_never_cleared_witness :
    (List.foldl lastFnStep (some ⟨"f", ["x"], 0⟩) [(docC6, ⟨1, 0⟩)] ≠ none) ∧
    (lastFnStep none (docC6, ⟨1, 0⟩) = none) :=
  ⟨C9_lastfn_never_cleared.1 [(docC6, ⟨1, 0⟩)] (some ⟨"f", ["x"], 0⟩) (by decide),
   C9_lastfn_never_cleared.2.1 docC6 ⟨1, 0⟩ none (by decide)⟩

/-- C10: when the comment context is empty, the current line is not
blank, and the trimmed text before the cursor has fewer than two
characters, the provider returns the empty list immediately: no model
request is issued and the provider state is untouched. -/
theorem C10_short_line_early_return (st : ProviderState) (doc : TextDocument)
    (pos : Pos) (outcome : ModelOutcome)
    (h1 : getContextFromComments doc pos = "")
    (h2 : jsTrim (lineAt doc pos.line) ≠ "")
    (h3 : (jsTrim (strTake (lineAt doc pos.line) pos.character)).length < 2) :
    (pipelineRun st doc pos outcome).items = [] ∧
      (pipelineRun st doc pos outcome).requested = false ∧
      (pipelineRun st doc pos outcome).state = st := by
  unfold pipelineRun
  dsimp only
  split
  · exact ⟨rfl, rfl, rfl⟩
  · rename_i hcond
    exact absurd (by simp [h1, h2, h3]) hcond

/-- C10 witness: one-character line "a" with the cursor after it: no
comment context, non-blank line, trimmed prefix of length one — the
result is empty, no request is issued, the state is unchanged. -/
theorem C10_short_line_early_return_witness :
    (pipelineRun initialState docC10 ⟨0, 1⟩ (.success (some "zz"))).items = [] ∧
      (pipelineRun initialState docC10 ⟨0, 1⟩ (.success (some "zz"))).requested = false ∧
      (pipelineRun initialState docC10 ⟨0, 1⟩ (.success (some "zz"))).state = initialState :=
  C10_short_line_early_return initialState docC10 ⟨0, 1⟩ (.success (some "zz"))
    (by decide) (by decide) (by decide)

end LMC
